import Mathlib

/-!
Shallow embedding of the mycoin ledger engine (src/app.py) and proofs about it.

Modelling conventions:
* Python floats (amounts, reward arithmetic) are modelled as exact rationals `ℚ`.
* The SHA-256 digest of the canonical JSON serialisation of a block's header
  fields (`sha256_hex(serialize_block_for_hash(block))`, which excludes the
  stored `hash` field) is abstracted as a function `hashFn : BlockHeader → String`;
  every theorem is proved for an arbitrary such function, and concrete witnesses
  instantiate it.  The domain `BlockHeader` captures structurally that a block's
  own `hash` never enters its hashing input.
* The external `cryptography` library calls (DER public-key parsing and ECDSA
  verification inside `verify_signature`) are abstracted as a function
  `ecdsaOk`; the base64-decodability gate that runs before them is modelled.
* The unbounded `while` loops (`current_reward`'s halving search and the
  proof-of-work nonce search in `mine`) are modelled with explicit fuel;
  `none` for every fuel value represents non-termination of the source loop.
* The Flask/HTTP façade, SSE event broadcasting and threading are outside the
  embedding; the ledger state is `ChainState` (the globals `chain` and
  `pending_txs`), and the three handlers that touch it are modelled as
  functions on that state.
-/

namespace MyCoin

/-- `DIFFICULTY = 3` (src/app.py line 8): required number of leading hex zeros. -/
def DIFFICULTY : Nat := 3

/-- `START_REWARD = 50.0` (line 9). -/
def START_REWARD : ℚ := 50

/-- `COIN_CAP = 21_000_000.0` (line 10). -/
def COIN_CAP : ℚ := 21000000

/-- A transaction dict.  `tx_from`/`tx_to` model the `'from'`/`'to'` keys
(`from` is a reserved word in Lean).  Coinbase transactions carry no
signature/pubkey keys, modelled by `none`. -/
structure Tx where
  tx_from : String
  tx_to : String
  amount : ℚ
  signature : Option String
  pubkey_spki : Option String
deriving DecidableEq, Repr

/-- The six fields of a block that enter `serialize_block_for_hash`
(lines 26-36): everything except the stored `hash`. -/
structure BlockHeader where
  index : Int
  timestamp : Int
  nonce : Int
  prev_hash : String
  transactions : List Tx
  miner : Option String
deriving DecidableEq, Repr

/-- A block dict: header fields plus the stored `hash`. -/
structure Block where
  index : Int
  timestamp : Int
  nonce : Int
  prev_hash : String
  transactions : List Tx
  miner : Option String
  hash : String
deriving DecidableEq, Repr

/-- The hashing input of a block: its fields excluding `hash`
(`serialize_block_for_hash`, lines 26-36). -/
def Block.header (b : Block) : BlockHeader :=
  ⟨b.index, b.timestamp, b.nonce, b.prev_hash, b.transactions, b.miner⟩

/-- `compute_block_hash` (lines 38-39), with the SHA-256-of-canonical-JSON
composite abstracted as `hashFn`. -/
def compute_block_hash (hashFn : BlockHeader → String) (b : Block) : String :=
  hashFn b.header

/-- A string of `n` zero characters (`'0' * n`). -/
def zeros (n : Nat) : String :=
  String.mk (List.replicate n '0')

/-- `h.startswith('0' * DIFFICULTY)` (lines 52 and 231): the proof-of-work
predicate at the configured difficulty. -/
def hash_meets_difficulty (h : String) : Bool :=
  h.toList.take DIFFICULTY == List.replicate DIFFICULTY '0'

/-- The three per-block checks of `is_valid_chain`'s loop body (lines 46-53):
link to predecessor, hash reproducibility, and proof-of-work. -/
def valid_link (hashFn : BlockHeader → String) (prev blk : Block) : Bool :=
  (blk.prev_hash == prev.hash)
    && (compute_block_hash hashFn blk == blk.hash)
    && hash_meets_difficulty blk.hash

/-- `is_valid_chain` (lines 41-55): `for i in range(1, len(c))`, checking each
adjacent pair; the first block is never inspected (beyond its `hash` being
read as block 1's predecessor digest). -/
def is_valid_chain (hashFn : BlockHeader → String) : List Block → Bool
  | [] => true
  | [_] => true
  | prev :: blk :: rest =>
      valid_link hashFn prev blk && is_valid_chain hashFn (blk :: rest)

/-- The accumulator step of `total_issued`'s inner loop (lines 60-62). -/
def issue_step (t : ℚ) (tx : Tx) : ℚ :=
  if tx.tx_from == "SYSTEM" then t + tx.amount else t

/-- `total_issued` (lines 57-63): sum of the amounts of all transactions with
sender `'SYSTEM'` across the chain. -/
def total_issued (c : List Block) : ℚ :=
  c.foldl (fun total blk => blk.transactions.foldl issue_step total) 0

/-- Sum of `'SYSTEM'` amounts of one transaction list (the inner loop of
`total_issued` started from 0). -/
def txs_issue (l : List Tx) : ℚ :=
  l.foldl issue_step 0

/-- `COIN_CAP * (1.0 - 1.0 / (2 ** (k + 1)))` (line 71): the halving threshold
tested at loop counter `k`. -/
def halving_threshold (k : Nat) : ℚ :=
  COIN_CAP * (1 - 1 / 2 ^ (k + 1))

/-- The `while True` halving-count search of `current_reward` (lines 69-75),
with explicit fuel.  `none` for every fuel value means the source loop never
exits. -/
def reward_loop (issued : ℚ) : Nat → Nat → Option Nat
  | 0, _ => none
  | fuel + 1, k =>
      if halving_threshold k ≤ issued then reward_loop issued fuel (k + 1)
      else some k

/-- `current_reward` (lines 65-82) as a function of the issuance figure it
computes on line 66: halving loop, then the coin-cap clamps. -/
def current_reward_issued (issued : ℚ) (fuel : Nat) : Option ℚ :=
  match reward_loop issued fuel 0 with
  | none => none
  | some k =>
      let reward := START_REWARD / 2 ^ k
      if COIN_CAP ≤ issued then some 0
      else if COIN_CAP < issued + reward then some (max 0 (COIN_CAP - issued))
      else some reward

/-- `current_reward(chain_obj)` (lines 65-66). -/
def current_reward (c : List Block) (fuel : Nat) : Option ℚ :=
  current_reward_issued (total_issued c) fuel

/-- A character of the standard base64 alphabet or the padding character. -/
def is_b64_char (c : Char) : Bool :=
  ('A' ≤ c && c ≤ 'Z') || ('a' ≤ c && c ≤ 'z') || ('0' ≤ c && c ≤ '9')
    || c == '+' || c == '/' || c == '='

/-- Whether `base64.b64decode` succeeds on `s`: Python discards characters
outside the base64 alphabet and then requires the remaining length to be a
multiple of 4 (raising `binascii.Error: Incorrect padding` otherwise).  Finer
padding-placement errors are not modelled; no theorem depends on them. -/
def b64decodable (s : String) : Bool :=
  (s.toList.filter is_b64_char).length % 4 == 0

/-- The canonical signed message of `submit_tx` line 156:
`json.dumps({'from', 'to', 'amount'})`, modelled as the triple itself (the
encoding is injective on the triple, and no theorem depends on its bytes). -/
structure SigMsg where
  m_from : String
  m_to : String
  m_amount : ℚ
deriving DecidableEq, Repr

/-- `verify_signature` (lines 84-92).  The base64 decoding of the key and the
signature is modelled; DER public-key parsing and the ECDSA verification
itself (external `cryptography` library) are abstracted as `ecdsaOk`.  Any
failure returns `false` (the `except` clause). -/
def verify_signature (ecdsaOk : String → String → SigMsg → Bool)
    (spki_b64 sig_b64 : String) (msg : SigMsg) : Bool :=
  if b64decodable spki_b64 && b64decodable sig_b64 then
    ecdsaOk spki_b64 sig_b64 msg
  else false

/-- The ledger state: the globals `chain` (line 16) and `pending_txs`
(line 17). -/
structure ChainState where
  chain : List Block
  pending_txs : List Tx
deriving DecidableEq, Repr

/-- The genesis block built at start-up (lines 110-119); its timestamp
`int(time.time())` is a parameter. -/
def genesis_block (hashFn : BlockHeader → String) (ts : Int) : Block :=
  let hdr : BlockHeader := ⟨0, ts, 0, zeros 64, [], none⟩
  ⟨0, ts, 0, zeros 64, [], none, hashFn hdr⟩

/-- The initial ledger state (lines 110-120): exactly the genesis block, no
pending transactions. -/
def init_state (hashFn : BlockHeader → String) (ts : Int) : ChainState :=
  ⟨[genesis_block hashFn ts], []⟩

/-- `submit_chain` (lines 132-147), after JSON parsing: adopt the incoming
chain iff it is strictly longer and `is_valid_chain` holds; on adoption the
chain is replaced and `pending_txs.clear()` runs; otherwise the state is
untouched and `'rejected'` is returned. -/
def submit_chain (hashFn : BlockHeader → String) (incoming : List Block)
    (s : ChainState) : Bool × ChainState :=
  if s.chain.length < incoming.length ∧ is_valid_chain hashFn incoming = true then
    (true, ⟨incoming, []⟩)
  else
    (false, s)

/-- The outcomes of `submit_tx`: the four error responses of lines 154, 158,
162 and 167, and acceptance (line 177). -/
inductive SubmitOutcome where
  | accepted
  | missing_fields
  | invalid_sig
  | identity_mismatch
  | insufficient_funds (balance : ℚ)
deriving DecidableEq, Repr

/-- The request body of `submit_tx`: the five keys of `required` (line 152),
each possibly absent. -/
structure TxRequest where
  tx_from : Option String
  tx_to : Option String
  amount : Option ℚ
  signature : Option String
  pubkey_spki : Option String
deriving DecidableEq, Repr

/-- One step of the sealed-blocks scan of `calculate_balance_internal`
(lines 192-196): credit if recipient matches, debit if sender matches. -/
def tx_balance_step (pub : String) (bal : ℚ) (tx : Tx) : ℚ :=
  let bal1 := if tx.tx_to == pub then bal + tx.amount else bal
  if tx.tx_from == pub then bal1 - tx.amount else bal1

/-- One step of the pending scan of `calculate_balance_internal`
(lines 198-200): debit outgoing pending amounts. -/
def tx_out_step (pub : String) (bal : ℚ) (tx : Tx) : ℚ :=
  if tx.tx_from == pub then bal - tx.amount else bal

/-- `calculate_balance_internal` (lines 188-201). -/
def calculate_balance_internal (pub : String) (s : ChainState) : ℚ :=
  let bal := s.chain.foldl (fun b blk => blk.transactions.foldl (tx_balance_step pub) b) 0
  s.pending_txs.foldl (tx_out_step pub) bal

/-- `submit_tx` (lines 149-177): field presence, signature verification,
identity check (`tx['from'] != tx['pubkey_spki']`), then the balance check
and append to `pending_txs`.  There is no check on the sign of `amount`. -/
def submit_tx (ecdsaOk : String → String → SigMsg → Bool) (req : TxRequest)
    (s : ChainState) : SubmitOutcome × ChainState :=
  match req with
  | ⟨some f, some t, some a, some sig, some pk⟩ =>
      if verify_signature ecdsaOk pk sig ⟨f, t, a⟩ then
        if f == pk then
          let bal := calculate_balance_internal f s
          if bal < a then (SubmitOutcome.insufficient_funds bal, s)
          else (SubmitOutcome.accepted,
                ⟨s.chain, s.pending_txs ++ [⟨f, t, a, some sig, some pk⟩]⟩)
        else (SubmitOutcome.identity_mismatch, s)
      else (SubmitOutcome.invalid_sig, s)
  | _ => (SubmitOutcome.missing_fields, s)

/-- The proof-of-work loop of `mine` (lines 225-235): try successive nonces
from 0, with explicit fuel (the source loop is unbounded; its `found` flag is
always true when it breaks, so the `if not found` branch on line 238 is dead).
Returns the successful nonce and digest. -/
def mine_search (hashFn : BlockHeader → String) (hdr : BlockHeader) :
    Nat → Nat → Option (Nat × String)
  | 0, _ => none
  | fuel + 1, nonce =>
      let h := hashFn { hdr with nonce := (nonce : Int) }
      if hash_meets_difficulty h then some (nonce, h)
      else mine_search hashFn hdr fuel (nonce + 1)

/-- `mine` (lines 203-245): compute the reward, build the coinbase and the
block over `chain[-1]`, run the proof-of-work search, then append the sealed
block and clear `pending_txs`.  `ts` stands for `int(time.time())`; `rfuel`
and `pfuel` are the fuels of the two unbounded source loops. -/
def mine (hashFn : BlockHeader → String) (miner_pub : String) (ts : Int)
    (rfuel pfuel : Nat) (s : ChainState) : Option (Block × ChainState) :=
  match s.chain.getLast? with
  | none => none
  | some tip =>
      match current_reward s.chain rfuel with
      | none => none
      | some reward =>
          let coinbase : Tx := ⟨"SYSTEM", miner_pub, reward, none, none⟩
          let txs := coinbase :: s.pending_txs
          let hdr : BlockHeader := ⟨(s.chain.length : Int), ts, 0, tip.hash, txs, some miner_pub⟩
          match mine_search hashFn hdr pfuel 0 with
          | none => none
          | some (nonce, h) =>
              let b : Block :=
                ⟨(s.chain.length : Int), ts, (nonce : Int), tip.hash, txs, some miner_pub, h⟩
              some (b, ⟨s.chain ++ [b], []⟩)

/-- One observable state transition of the engine: a transaction submission, a
candidate-chain submission, or a successful mine (a failed or non-terminating
mine performs no mutation before its append, so it induces no transition). -/
inductive Step (hashFn : BlockHeader → String)
    (ecdsaOk : String → String → SigMsg → Bool) : ChainState → ChainState → Prop where
  | tx : ∀ req s s', (submit_tx ecdsaOk req s).2 = s' → Step hashFn ecdsaOk s s'
  | adopt : ∀ inc s s', (submit_chain hashFn inc s).2 = s' → Step hashFn ecdsaOk s s'
  | mined : ∀ pub ts rfuel pfuel s b s',
      mine hashFn pub ts rfuel pfuel s = some (b, s') → Step hashFn ecdsaOk s s'

/-- States reachable from genesis initialisation by any sequence of
submissions, adoptions and successful mines. -/
inductive Reachable (hashFn : BlockHeader → String)
    (ecdsaOk : String → String → SigMsg → Bool) : ChainState → Prop where
  | start : ∀ ts : Int, Reachable hashFn ecdsaOk (init_state hashFn ts)
  | step : ∀ s s', Reachable hashFn ecdsaOk s → Step hashFn ecdsaOk s s' →
      Reachable hashFn ecdsaOk s'

/-- States reachable without any candidate-chain adoption: genesis,
transaction submissions and successful mines only. -/
inductive MineReachable (hashFn : BlockHeader → String)
    (ecdsaOk : String → String → SigMsg → Bool) : ChainState → Prop where
  | start : ∀ ts : Int, MineReachable hashFn ecdsaOk (init_state hashFn ts)
  | tx : ∀ req s, MineReachable hashFn ecdsaOk s →
      MineReachable hashFn ecdsaOk (submit_tx ecdsaOk req s).2
  | mined : ∀ pub ts rfuel pfuel s b s', MineReachable hashFn ecdsaOk s →
      mine hashFn pub ts rfuel pfuel s = some (b, s') →
      MineReachable hashFn ecdsaOk s'

/-- The pairwise validity conditions of spec §4.6, stated positionally as the
fork-choice claim words them: for every adjacent pair, link to predecessor,
digest reproducibility, and the proof-of-work predicate. -/
def chain_checks (hashFn : BlockHeader → String) (c : List Block) : Prop :=
  ∀ i : Nat, (h : i + 1 < c.length) →
    (c.get ⟨i + 1, h⟩).prev_hash = (c.get ⟨i, Nat.lt_of_succ_lt h⟩).hash
    ∧ hashFn ((c.get ⟨i + 1, h⟩).header) = (c.get ⟨i + 1, h⟩).hash
    ∧ hash_meets_difficulty ((c.get ⟨i + 1, h⟩).hash) = true

/-- The hash conditions of the sealed-block claim, for every position ≥ 1 of a
chain: digest reproducibility and the proof-of-work predicate. -/
def blocks_checked (hashFn : BlockHeader → String) (c : List Block) : Prop :=
  ∀ i, (hi : i + 1 < c.length) →
    hashFn ((c.get ⟨i + 1, hi⟩).header) = (c.get ⟨i + 1, hi⟩).hash
    ∧ hash_meets_difficulty ((c.get ⟨i + 1, hi⟩).hash) = true

/-- All transactions of all sealed blocks, in chain order. -/
def sealed_txs (s : ChainState) : List Tx :=
  (s.chain.map Block.transactions).flatten

/-- Sum of the amounts of the transactions of `l` whose recipient is `pub`. -/
def credits (pub : String) (l : List Tx) : ℚ :=
  ((l.filter fun tx => tx.tx_to == pub).map Tx.amount).sum

/-- Sum of the amounts of the transactions of `l` whose sender is `pub`. -/
def debits (pub : String) (l : List Tx) : ℚ :=
  ((l.filter fun tx => tx.tx_from == pub).map Tx.amount).sum

/-- A concrete hash function for witnesses and counterexamples: constantly the
difficulty target string. -/
def cHash : BlockHeader → String := fun _ => zeros DIFFICULTY

/-- A concrete abstract-ECDSA oracle for witnesses and counterexamples:
always verifies. -/
def dvTrue : String → String → SigMsg → Bool := fun _ _ _ => true

/-- First block of the adversarial candidate: arbitrary index, arbitrary
previous hash, and a stored hash that is not the digest of its header. -/
def bad_b0 : Block := ⟨5, 0, 0, "junkprev", [], none, "junk"⟩

/-- Second block of the adversarial candidate: correctly linked and hashed
(under `cHash`), carrying a `'SYSTEM'` transaction far above the coin cap. -/
def bad_b1 : Block :=
  ⟨1, 0, 0, "junk", [⟨"SYSTEM", "X", 30000000, none, none⟩], none, zeros DIFFICULTY⟩

/-- The adversarial candidate chain. -/
def bad_cand : List Block := [bad_b0, bad_b1]

/-- A well-formed-looking first block sharing `bad_b0`'s stored hash: index 0
and the all-zero sentinel, used to exhibit that only the stored hash of the
first block matters to fork choice. -/
def good_b0 : Block := ⟨0, 0, 0, zeros 64, [], none, "junk"⟩

/-- The state obtained by adopting `bad_cand` from the initial state. -/
def bad_state : ChainState := ⟨bad_cand, []⟩

/-! ### Basic lemmas about the reward schedule -/

lemma COIN_CAP_pos : (0 : ℚ) < COIN_CAP := by norm_num [COIN_CAP]

lemma halving_threshold_lt_cap (k : Nat) : halving_threshold k < COIN_CAP := by
  unfold halving_threshold
  have h2 : (0 : ℚ) < 1 / 2 ^ (k + 1) := by positivity
  have h1 : (1 : ℚ) - 1 / 2 ^ (k + 1) < 1 := by linarith
  calc COIN_CAP * (1 - 1 / 2 ^ (k + 1)) < COIN_CAP * 1 :=
        mul_lt_mul_of_pos_left h1 COIN_CAP_pos
    _ = COIN_CAP := mul_one _

lemma reward_loop_none_of_cap_le {issued : ℚ} (h : COIN_CAP ≤ issued) :
    ∀ fuel k, reward_loop issued fuel k = none := by
  intro fuel
  induction fuel with
  | zero => intro k; rfl
  | succ n ih =>
      intro k
      unfold reward_loop
      rw [if_pos (le_trans (le_of_lt (halving_threshold_lt_cap k)) h)]
      exact ih (k + 1)

lemma reward_loop_some_lt {issued : ℚ} :
    ∀ fuel k k', reward_loop issued fuel k = some k' → issued < halving_threshold k' := by
  intro fuel
  induction fuel with
  | zero => intro k k' h; cases h
  | succ n ih =>
      intro k k' h
      unfold reward_loop at h
      by_cases hc : halving_threshold k ≤ issued
      · rw [if_pos hc] at h; exact ih (k + 1) k' h
      · rw [if_neg hc] at h
        cases h
        exact lt_of_not_le hc

/-- Whenever `current_reward` returns, adding the returned reward to the
issuance it was computed from does not exceed the cap. -/
lemma current_reward_issued_le {issued r : ℚ} {fuel : Nat}
    (h : current_reward_issued issued fuel = some r) : issued + r ≤ COIN_CAP := by
  unfold current_reward_issued at h
  cases hl : reward_loop issued fuel 0 with
  | none => rw [hl] at h; cases h
  | some k =>
      rw [hl] at h
      have hlt : issued < COIN_CAP :=
        lt_trans (reward_loop_some_lt fuel 0 k hl) (halving_threshold_lt_cap k)
      simp only at h
      by_cases h1 : COIN_CAP ≤ issued
      · exact absurd h1 (not_le_of_lt hlt)
      · rw [if_neg h1] at h
        by_cases h2 : COIN_CAP < issued + START_REWARD / 2 ^ k
        · rw [if_pos h2] at h
          cases h
          have : COIN_CAP - issued ≤ max 0 (COIN_CAP - issued) := le_max_right _ _
          have hmax : max (0 : ℚ) (COIN_CAP - issued) = COIN_CAP - issued :=
            max_eq_right (by linarith)
          rw [hmax]
          linarith
        · rw [if_neg h2] at h
          cases h
          linarith [le_of_not_lt h2]

/-! ### Basic lemmas about issuance accounting -/

lemma foldl_issue_shift (l : List Tx) (a : ℚ) :
    l.foldl issue_step a = a + txs_issue l := by
  unfold txs_issue
  induction l generalizing a with
  | nil => simp
  | cons tx l ih =>
      simp only [List.foldl_cons]
      rw [ih (issue_step a tx), ih (issue_step 0 tx)]
      unfold issue_step
      by_cases h : (tx.tx_from == "SYSTEM") = true
      · rw [if_pos h, if_pos h]; ring
      · rw [if_neg h, if_neg h]; ring

lemma total_issued_concat (c : List Block) (b : Block) :
    total_issued (c ++ [b]) = total_issued c + txs_issue b.transactions := by
  unfold total_issued
  rw [List.foldl_append]
  simp only [List.foldl_cons, List.foldl_nil]
  exact foldl_issue_shift b.transactions _

lemma txs_issue_cons (tx : Tx) (l : List Tx) :
    txs_issue (tx :: l) = issue_step 0 tx + txs_issue l := by
  unfold txs_issue
  simp only [List.foldl_cons]
  exact foldl_issue_shift l _

lemma txs_issue_of_no_system {l : List Tx} (h : ∀ tx ∈ l, tx.tx_from ≠ "SYSTEM") :
    txs_issue l = 0 := by
  induction l with
  | nil => rfl
  | cons tx l ih =>
      rw [txs_issue_cons]
      have hne : (tx.tx_from == "SYSTEM") = false :=
        beq_eq_false_iff_ne.mpr (h tx (List.mem_cons_self tx l))
      unfold issue_step
      rw [hne]
      simp only [if_neg (Bool.false_ne_true)]
      rw [ih fun t ht => h t (List.mem_cons_of_mem tx ht)]
      ring

lemma total_issued_init (hashFn : BlockHeader → String) (ts : Int) :
    total_issued (init_state hashFn ts).chain = 0 := rfl

/-! ### Lemmas about signature verification and transaction submission -/

lemma verify_signature_b64 {dv : String → String → SigMsg → Bool}
    {pk sig : String} {m : SigMsg} (h : verify_signature dv pk sig m = true) :
    b64decodable pk = true := by
  unfold verify_signature at h
  by_cases hb : (b64decodable pk && b64decodable sig) = true
  · exact (Bool.and_eq_true_iff.mp hb).1
  · rw [if_neg hb] at h; cases h

lemma b64decodable_SYSTEM : b64decodable "SYSTEM" = false := by decide

/-- Complete case analysis of `submit_tx`: either it rejects and leaves the
state untouched, or it accepts a fully-populated request whose sender equals
its public key and whose signature verified, appending exactly that
transaction to `pending_txs`. -/
lemma submit_tx_cases (dv : String → String → SigMsg → Bool) (req : TxRequest)
    (s : ChainState) :
    (∃ out, out ≠ SubmitOutcome.accepted ∧ submit_tx dv req s = (out, s)) ∨
    (∃ f t a sig, req = ⟨some f, some t, some a, some sig, some f⟩ ∧
      verify_signature dv f sig ⟨f, t, a⟩ = true ∧
      submit_tx dv req s =
        (SubmitOutcome.accepted,
          ⟨s.chain, s.pending_txs ++ [⟨f, t, a, some sig, some f⟩]⟩)) := by
  obtain ⟨f?, t?, a?, sig?, pk?⟩ := req
  cases hf : f? with
  | none => exact Or.inl ⟨SubmitOutcome.missing_fields, by simp, rfl⟩
  | some f =>
    cases ht : t? with
    | none => exact Or.inl ⟨SubmitOutcome.missing_fields, by simp, rfl⟩
    | some t =>
      cases ha : a? with
      | none => exact Or.inl ⟨SubmitOutcome.missing_fields, by simp, rfl⟩
      | some a =>
        cases hsig : sig? with
        | none => exact Or.inl ⟨SubmitOutcome.missing_fields, by simp, rfl⟩
        | some sig =>
          cases hpk : pk? with
          | none => exact Or.inl ⟨SubmitOutcome.missing_fields, by simp, rfl⟩
          | some pk =>
            by_cases hv : verify_signature dv pk sig ⟨f, t, a⟩ = true
            · by_cases hid : (f == pk) = true
              · have hfpk : f = pk := beq_iff_eq.mp hid
                subst hfpk
                by_cases hbal : calculate_balance_internal f s < a
                · refine Or.inl ⟨SubmitOutcome.insufficient_funds
                    (calculate_balance_internal f s), by simp, ?_⟩
                  simp only [submit_tx, hv, if_true, hid, if_pos hbal]
                · refine Or.inr ⟨f, t, a, sig, rfl, hv, ?_⟩
                  simp only [submit_tx, hv, if_true, hid, if_neg hbal]
              · refine Or.inl ⟨SubmitOutcome.identity_mismatch, by simp, ?_⟩
                simp only [submit_tx, hv, if_true, hid]
                rfl
            · refine Or.inl ⟨SubmitOutcome.invalid_sig, by simp, ?_⟩
              simp only [submit_tx]
              rw [if_neg hv]

lemma submit_tx_chain_eq (dv : String → String → SigMsg → Bool) (req : TxRequest)
    (s : ChainState) : (submit_tx dv req s).2.chain = s.chain := by
  rcases submit_tx_cases dv req s with ⟨out, _, heq⟩ | ⟨f, t, a, sig, _, _, heq⟩ <;>
    rw [heq]

/-! ### Lemmas about mining -/

lemma mine_search_spec (hashFn : BlockHeader → String) (hdr : BlockHeader) :
    ∀ fuel nonce n h, mine_search hashFn hdr fuel nonce = some (n, h) →
      h = hashFn { hdr with nonce := (n : Int) } ∧ hash_meets_difficulty h = true := by
  intro fuel
  induction fuel with
  | zero => intro nonce n h hm; cases hm
  | succ m ih =>
      intro nonce n h hm
      unfold mine_search at hm
      by_cases hd : hash_meets_difficulty (hashFn { hdr with nonce := (nonce : Int) }) = true
      · simp only [hd, if_true] at hm
        cases hm
        exact ⟨rfl, hd⟩
      · simp only [hd, if_false, Bool.false_eq_true] at hm
        exact ih (nonce + 1) n h hm

/-- Inversion of a successful `mine`: the appended block's shape and the
properties its proof-of-work loop guarantees. -/
lemma mine_some_inv {hashFn : BlockHeader → String} {pub : String} {ts : Int}
    {rfuel pfuel : Nat} {s : ChainState} {b : Block} {s' : ChainState}
    (h : mine hashFn pub ts rfuel pfuel s = some (b, s')) :
    ∃ (tip : Block) (reward : ℚ) (nonce : Nat), s.chain.getLast? = some tip ∧
      current_reward_issued (total_issued s.chain) rfuel = some reward ∧
      b.transactions = Tx.mk "SYSTEM" pub reward none none :: s.pending_txs ∧
      b.prev_hash = tip.hash ∧ b.index = (s.chain.length : Int) ∧
      b.timestamp = ts ∧ b.nonce = (nonce : Int) ∧ b.miner = some pub ∧
      hashFn b.header = b.hash ∧ hash_meets_difficulty b.hash = true ∧
      s' = ⟨s.chain ++ [b], []⟩ := by
  unfold mine at h
  cases htip : s.chain.getLast? with
  | none => rw [htip] at h; cases h
  | some tip =>
      rw [htip] at h
      cases hr : current_reward s.chain rfuel with
      | none => rw [hr] at h; cases h
      | some reward =>
          rw [hr] at h
          simp only at h
          cases hm : mine_search hashFn
              ⟨(s.chain.length : Int), ts, 0, tip.hash,
                Tx.mk "SYSTEM" pub reward none none :: s.pending_txs, some pub⟩
              pfuel 0 with
          | none => rw [hm] at h; cases h
          | some p =>
              obtain ⟨nonce, hsh⟩ := p
              rw [hm] at h
              simp only [Option.some.injEq, Prod.mk.injEq] at h
              obtain ⟨hb, hs'⟩ := h
              obtain ⟨hdig, hpow⟩ := mine_search_spec hashFn _ pfuel 0 nonce hsh hm
              subst hb
              subst hs'
              exact ⟨tip, reward, nonce, rfl, hr, rfl, rfl, rfl, rfl, rfl, rfl,
                hdig.symm, hpow, rfl⟩

/-! ### C2: the reward schedule diverges at the cap -/

/-- C2 (code bug exhibit): for `totalIssued ≥ cap` — in particular exactly at
the cap, which the clamp `cap - issued` can produce — the halving loop of
`current_reward` never exits, because every threshold
`COIN_CAP * (1 - 1/2^(k+1))` lies below the cap; the `issued >= COIN_CAP`
clamp below the loop is therefore unreachable and the function is not total,
contradicting the claimed contract. -/
theorem current_reward_diverges_at_cap (fuel k : Nat) :
    reward_loop COIN_CAP fuel k = none ∧
      current_reward_issued COIN_CAP fuel = none := by
  refine ⟨reward_loop_none_of_cap_le le_rfl fuel k, ?_⟩
  unfold current_reward_issued
  rw [reward_loop_none_of_cap_le le_rfl fuel 0]

/-! ### C1: supply-cap invariant -/

/-- The inductive invariant of mining-only executions: issuance is capped and
no pending transaction carries the reserved coinbase sender. -/
lemma mine_reachable_inv {hashFn : BlockHeader → String}
    {dv : String → String → SigMsg → Bool} {s : ChainState}
    (h : MineReachable hashFn dv s) :
    total_issued s.chain ≤ COIN_CAP ∧
      ∀ tx ∈ s.pending_txs, tx.tx_from ≠ "SYSTEM" := by
  induction h with
  | start ts =>
      refine ⟨?_, ?_⟩
      · rw [total_issued_init]
        exact le_of_lt COIN_CAP_pos
      · intro tx htx
        cases htx
  | tx req s hs ih =>
      rcases submit_tx_cases dv req s with ⟨out, _, heq⟩ | ⟨f, t, a, sig, _, hv, heq⟩
      · rw [heq]
        exact ih
      · rw [heq]
        refine ⟨ih.1, ?_⟩
        intro tx htx
        rcases List.mem_append.mp htx with hmem | hmem
        · exact ih.2 tx hmem
        · have : tx = ⟨f, t, a, some sig, some f⟩ := List.mem_singleton.mp hmem
          subst this
          intro hsys
          have hb64 : b64decodable f = true := verify_signature_b64 hv
          rw [show f = "SYSTEM" from hsys] at hb64
          rw [b64decodable_SYSTEM] at hb64
          cases hb64
  | mined pub ts rfuel pfuel s b s' hs hm ih =>
      obtain ⟨tip, reward, nonce, -, hr, htxs, -, -, -, -, -, -, -, hs'⟩ :=
        mine_some_inv hm
      subst hs'
      refine ⟨?_, fun tx htx => absurd htx (List.not_mem_nil tx)⟩
      rw [total_issued_concat, htxs, txs_issue_cons,
        txs_issue_of_no_system ih.2]
      have hcoin : issue_step 0 (Tx.mk "SYSTEM" pub reward none none) = reward := by
        unfold issue_step
        simp
      rw [hcoin]
      have := current_reward_issued_le hr
      linarith

/-- C1 (amended): in every state reachable from genesis by transaction
submissions and successful mine commits (no candidate-chain adoptions), the
total issuance — the sum of the amounts of all transactions with sender
`'SYSTEM'` across all sealed blocks — is at most the cap; and whenever
`current_reward` returns a reward, adding it to the issuance it was computed
from does not exceed the cap.  (Candidate-chain adoption can break the bound:
see the counterexample.) -/
theorem supply_cap_mine_reachable (hashFn : BlockHeader → String)
    (dv : String → String → SigMsg → Bool) :
    (∀ s, MineReachable hashFn dv s → total_issued s.chain ≤ COIN_CAP) ∧
    (∀ (issued r : ℚ) (fuel : Nat),
      current_reward_issued issued fuel = some r → issued + r ≤ COIN_CAP) :=
  ⟨fun _ h => (mine_reachable_inv h).1, fun _ _ _ h => current_reward_issued_le h⟩

/-- Witness for C1's theorem at a concrete state and a concrete reward call. -/
theorem supply_cap_mine_reachable_witness :
    total_issued (init_state cHash 0).chain ≤ COIN_CAP ∧
      (0 : ℚ) + 50 ≤ COIN_CAP :=
  ⟨(supply_cap_mine_reachable cHash dvTrue).1 _ (MineReachable.start 0),
    (supply_cap_mine_reachable cHash dvTrue).2 0 50 1 (by
      show current_reward_issued 0 1 = some 50
      unfold current_reward_issued reward_loop
      rw [if_neg (by norm_num [halving_threshold, COIN_CAP])]
      simp only
      rw [if_neg (by norm_num [COIN_CAP]), if_neg (by norm_num [COIN_CAP, START_REWARD])]
      norm_num [START_REWARD])⟩

lemma total_issued_bad : total_issued bad_state.chain = 30000000 := by
  norm_num [total_issued, bad_state, bad_cand, bad_b0, bad_b1, issue_step]

/-- The adversarial adoption: `bad_cand` is strictly longer than the genesis
chain and passes `is_valid_chain`, so `submit_chain` installs it. -/
lemma bad_state_reachable : Reachable cHash dvTrue bad_state :=
  Reachable.step _ _ (Reachable.start 0)
    (Step.adopt bad_cand _ _ (by decide))

/-- C1 (counterexample): a reachable state — one candidate-chain adoption away
from genesis — whose total issuance exceeds the cap, because `is_valid_chain`
never examines transaction amounts or senders. -/
theorem supply_cap_counterexample :
    Reachable cHash dvTrue bad_state ∧ COIN_CAP < total_issued bad_state.chain :=
  ⟨bad_state_reachable, by rw [total_issued_bad]; norm_num [COIN_CAP]⟩

/-! ### C3: there is no amount-positivity check in submit_tx -/

/-- C3 (counterexample): a transaction of amount 0 with a verifying signature
and matching identity is accepted by `submit_tx` and appended to the pending
set — no `InvalidAmount` rejection exists in the code. -/
theorem zero_amount_accepted_counterexample :
    (submit_tx dvTrue ⟨some "AAAA", some "B", some 0, some "AAAA", some "AAAA"⟩
        (init_state cHash 0)).1 = SubmitOutcome.accepted
    ∧ (submit_tx dvTrue ⟨some "AAAA", some "B", some 0, some "AAAA", some "AAAA"⟩
        (init_state cHash 0)).2.pending_txs ≠ (init_state cHash 0).pending_txs := by
  decide

/-- C3 (amended): `submit_tx` performs no positivity check on the amount; a
transaction whose amount is ≤ 0 is accepted — and appended to the pending
set — whenever the field, signature, identity and balance checks pass (for a
non-positive amount the balance check passes as soon as the sender's balance
is non-negative). -/
theorem submit_tx_no_amount_check (dv : String → String → SigMsg → Bool)
    (f t : String) (a : ℚ) (sig pk : String) (s : ChainState)
    (hnonpos : a ≤ 0)
    (hv : verify_signature dv pk sig ⟨f, t, a⟩ = true)
    (hid : f = pk)
    (hbal : 0 ≤ calculate_balance_internal f s) :
    submit_tx dv ⟨some f, some t, some a, some sig, some pk⟩ s
      = (SubmitOutcome.accepted,
         ⟨s.chain, s.pending_txs ++ [⟨f, t, a, some sig, some pk⟩]⟩) := by
  subst hid
  have hnlt : ¬ calculate_balance_internal f s < a := not_lt_of_le (le_trans hnonpos hbal)
  simp only [submit_tx, hv, if_true, beq_self_eq_true, if_neg hnlt]

/-- Witness for C3's amended theorem at a concrete zero-amount submission. -/
theorem submit_tx_no_amount_check_witness :
    submit_tx dvTrue ⟨some "AAAA", some "B", some 0, some "AAAA", some "AAAA"⟩
        (init_state cHash 0)
      = (SubmitOutcome.accepted,
         ⟨(init_state cHash 0).chain,
          (init_state cHash 0).pending_txs
            ++ [⟨"AAAA", "B", 0, some "AAAA", some "AAAA"⟩]⟩) :=
  submit_tx_no_amount_check dvTrue "AAAA" "B" 0 "AAAA" "AAAA" (init_state cHash 0)
    (by norm_num) (by decide) rfl (by decide)

/-! ### C10: coinbase unforgeability through the submission interface -/

/-- C10: `submit_tx` accepts only when the claimed sender equals the supplied
base64 SPKI key string and the signature verified under it; and any submission
whose sender is `'SYSTEM'` — which is not base64-decodable, its length not
being a multiple of 4 — is rejected with the pending set untouched, so
coinbase-sender transactions can never enter the mempool via submission. -/
theorem coinbase_unforgeable_via_submit (dv : String → String → SigMsg → Bool) :
    (∀ req s, (submit_tx dv req s).1 = SubmitOutcome.accepted →
      ∃ f t a sig, req = ⟨some f, some t, some a, some sig, some f⟩ ∧
        verify_signature dv f sig ⟨f, t, a⟩ = true) ∧
    (∀ req s, req.tx_from = some "SYSTEM" →
      (submit_tx dv req s).1 ≠ SubmitOutcome.accepted
        ∧ (submit_tx dv req s).2 = s) := by
  constructor
  · intro req s hacc
    rcases submit_tx_cases dv req s with ⟨out, hne, heq⟩ | ⟨f, t, a, sig, hreq, hv, heq⟩
    · rw [heq] at hacc
      exact absurd hacc hne
    · exact ⟨f, t, a, sig, hreq, hv⟩
  · intro req s hfrom
    rcases submit_tx_cases dv req s with ⟨out, hne, heq⟩ | ⟨f, t, a, sig, hreq, hv, heq⟩
    · rw [heq]
      exact ⟨hne, rfl⟩
    · exfalso
      rw [hreq] at hfrom
      have hf : f = "SYSTEM" := Option.some.inj hfrom
      have hb64 : b64decodable f = true := verify_signature_b64 hv
      rw [hf, b64decodable_SYSTEM] at hb64
      cases hb64

/-- Witness for C10 at a concrete `'SYSTEM'`-sender submission. -/
theorem coinbase_unforgeable_via_submit_witness :
    (submit_tx dvTrue ⟨some "SYSTEM", some "B", some 5, some "AAAA", some "AAAA"⟩
        (init_state cHash 0)).1 ≠ SubmitOutcome.accepted
    ∧ (submit_tx dvTrue ⟨some "SYSTEM", some "B", some 5, some "AAAA", some "AAAA"⟩
        (init_state cHash 0)).2 = init_state cHash 0 :=
  (coinbase_unforgeable_via_submit dvTrue).2 _ _ rfl

/-! ### C4: the fork-choice adoption rule -/

lemma valid_link_iff (hashFn : BlockHeader → String) (prev blk : Block) :
    valid_link hashFn prev blk = true ↔
      blk.prev_hash = prev.hash ∧ hashFn blk.header = blk.hash
        ∧ hash_meets_difficulty blk.hash = true := by
  unfold valid_link compute_block_hash
  rw [Bool.and_eq_true, Bool.and_eq_true]
  rw [beq_iff_eq, beq_iff_eq, and_assoc]

lemma chain_checks_cons (hashFn : BlockHeader → String) (a b : Block)
    (t : List Block) :
    chain_checks hashFn (a :: b :: t) ↔
      (b.prev_hash = a.hash ∧ hashFn b.header = b.hash
        ∧ hash_meets_difficulty b.hash = true)
      ∧ chain_checks hashFn (b :: t) := by
  constructor
  · intro h
    constructor
    · exact h 0 (by simp only [List.length_cons]; omega)
    · intro i hi
      exact h (i + 1) (by simp only [List.length_cons] at hi ⊢; omega)
  · rintro ⟨hab, hrest⟩ i hi
    cases i with
    | zero => exact hab
    | succ j => exact hrest j (by simp only [List.length_cons] at hi ⊢; omega)

lemma is_valid_chain_iff_checks (hashFn : BlockHeader → String) (c : List Block) :
    is_valid_chain hashFn c = true ↔ chain_checks hashFn c := by
  induction c with
  | nil =>
      constructor
      · intro _ i hi
        simp only [List.length_nil] at hi
        omega
      · intro _
        rfl
  | cons a t ih =>
      cases t with
      | nil =>
          constructor
          · intro _ i hi
            simp only [List.length_cons, List.length_nil] at hi
            omega
          · intro _
            rfl
      | cons b t' =>
          show (valid_link hashFn a b && is_valid_chain hashFn (b :: t')) = true ↔ _
          rw [Bool.and_eq_true, ih, valid_link_iff, chain_checks_cons]

/-- C4: `submit_chain` adopts a candidate iff it is strictly longer than the
current chain and every adjacent pair satisfies the link, digest and
proof-of-work checks; on adoption the chain is replaced by the candidate and
the pending set is cleared entirely; on rejection the state is returned
unchanged. -/
theorem fork_choice_adoption_rule (hashFn : BlockHeader → String)
    (inc : List Block) (s : ChainState) :
    ((submit_chain hashFn inc s).1 = true ↔
      s.chain.length < inc.length ∧ chain_checks hashFn inc)
    ∧ ((submit_chain hashFn inc s).1 = true →
        (submit_chain hashFn inc s).2 = ⟨inc, []⟩)
    ∧ ((submit_chain hashFn inc s).1 = false →
        (submit_chain hashFn inc s).2 = s) := by
  unfold submit_chain
  by_cases hc : s.chain.length < inc.length ∧ is_valid_chain hashFn inc = true
  · rw [if_pos hc]
    refine ⟨?_, fun _ => rfl, fun hf => absurd hf (by simp)⟩
    constructor
    · intro _
      exact ⟨hc.1, (is_valid_chain_iff_checks hashFn inc).mp hc.2⟩
    · intro _
      rfl
  · rw [if_neg hc]
    refine ⟨?_, fun ht => absurd ht (by simp), fun _ => rfl⟩
    constructor
    · intro habs
      exact absurd habs (by simp)
    · rintro ⟨h1, h2⟩
      exact absurd ⟨h1, (is_valid_chain_iff_checks hashFn inc).mpr h2⟩ hc

/-- Witness for C4 at a concrete rejected (not-longer) candidate. -/
theorem fork_choice_adoption_rule_witness :
    (submit_chain cHash [] (init_state cHash 0)).2 = init_state cHash 0 :=
  (fork_choice_adoption_rule cHash [] (init_state cHash 0)).2.2 (by decide)

/-! ### C5: the first block of a candidate is exempt from all checks -/

lemma is_valid_chain_first_hash (hashFn : BlockHeader → String) (b b' : Block)
    (rest : List Block) (hh : b'.hash = b.hash) :
    is_valid_chain hashFn (b' :: rest) = is_valid_chain hashFn (b :: rest) := by
  cases rest with
  | nil => rfl
  | cons c t =>
      show (valid_link hashFn b' c && _) = (valid_link hashFn b c && _)
      unfold valid_link
      rw [hh]

/-- C5 (counterexample): `submit_chain` adopts a strictly longer,
pairwise-valid candidate whose first block has index 5 and a previous hash
that is not the all-zero sentinel — the claimed index-0/sentinel requirement
on the candidate's first block does not exist in the code. -/
theorem genesis_unchecked_counterexample :
    submit_chain cHash bad_cand (init_state cHash 0) = (true, ⟨bad_cand, []⟩)
    ∧ bad_cand.head? = some bad_b0
    ∧ bad_b0.index ≠ 0 ∧ bad_b0.prev_hash ≠ zeros 64 := by
  decide

/-- C5 (amended): the candidate's first block is exempt from every check —
proof-of-work, previous-hash link, index and sentinel alike; fork choice reads
nothing of the first block except its stored hash, so replacing the first
block by any block with the same stored hash leaves the adoption decision
unchanged, and an adopted candidate is installed as offered. -/
theorem first_block_exempt (hashFn : BlockHeader → String) (b b' : Block)
    (rest : List Block) (s : ChainState) (hh : b'.hash = b.hash) :
    (submit_chain hashFn (b' :: rest) s).1 = (submit_chain hashFn (b :: rest) s).1
    ∧ ((submit_chain hashFn (b :: rest) s).1 = true →
        submit_chain hashFn (b' :: rest) s = (true, ⟨b' :: rest, []⟩)) := by
  unfold submit_chain
  have hlen : (b' :: rest).length = (b :: rest).length := by
    simp only [List.length_cons]
  rw [hlen, is_valid_chain_first_hash hashFn b b' rest hh]
  by_cases hc : s.chain.length < (b :: rest).length
      ∧ is_valid_chain hashFn (b :: rest) = true
  · rw [if_pos hc, if_pos hc]
    exact ⟨rfl, fun _ => rfl⟩
  · rw [if_neg hc, if_neg hc]
    exact ⟨rfl, fun ht => absurd ht (by simp)⟩

/-- Witness for C5's amended theorem: swapping a sentinel-correct first block
for the junk one with the same stored hash still yields adoption. -/
theorem first_block_exempt_witness :
    submit_chain cHash (bad_b0 :: [bad_b1]) (init_state cHash 0)
      = (true, ⟨bad_b0 :: [bad_b1], []⟩) :=
  (first_block_exempt cHash good_b0 bad_b0 [bad_b1] (init_state cHash 0)
    (by decide)).2 (by decide)

/-! ### C6: hash invariants of sealed blocks in reachable states -/

lemma get_concat_lt {α : Type} (l : List α) (b : α) (i : Nat) (h1 : i < l.length)
    (h2 : i < (l ++ [b]).length) : (l ++ [b]).get ⟨i, h2⟩ = l.get ⟨i, h1⟩ := by
  rw [List.get_eq_getElem, List.get_eq_getElem]
  exact List.getElem_append_left h1

lemma get_concat_last {α : Type} (l : List α) (b : α)
    (h : l.length < (l ++ [b]).length) : (l ++ [b]).get ⟨l.length, h⟩ = b := by
  rw [List.get_eq_getElem]
  simp

/-- In every reachable state, every block at position ≥ 1 reproduces its hash
and satisfies the proof-of-work predicate. -/
lemma reachable_blocks_checked {hashFn : BlockHeader → String}
    {dv : String → String → SigMsg → Bool} {s : ChainState}
    (h : Reachable hashFn dv s) : blocks_checked hashFn s.chain := by
  induction h with
  | start ts =>
      intro i hi
      simp only [init_state, List.length_cons, List.length_nil] at hi
      omega
  | step s s' hs hstep ih =>
      cases hstep with
      | tx req _ _ heq =>
          subst heq
          rw [submit_tx_chain_eq]
          exact ih
      | adopt inc _ _ heq =>
          subst heq
          by_cases hc : s.chain.length < inc.length
              ∧ is_valid_chain hashFn inc = true
          · simp only [submit_chain, if_pos hc]
            intro i hi
            have hck := (is_valid_chain_iff_checks hashFn inc).mp hc.2 i hi
            exact ⟨hck.2.1, hck.2.2⟩
          · simp only [submit_chain, if_neg hc]
            exact ih
      | mined pub ts rf pf _ b _ hm =>
          obtain ⟨tip, reward, nonce, htip, hr, htxs, hph, hidx, hts, hn,
            hminer, hdig, hpow, hs'⟩ := mine_some_inv hm
          subst hs'
          intro i hi
          have hlen : i + 1 < s.chain.length + 1 := by
            simpa using hi
          by_cases hlt : i + 1 < s.chain.length
          · show _ ∧ _
            rw [get_concat_lt s.chain b (i + 1) hlt hi]
            exact ih i hlt
          · have hieq : i + 1 = s.chain.length := by omega
            have hfin : (⟨i + 1, hi⟩ : Fin (s.chain ++ [b]).length)
                = ⟨s.chain.length, by simp⟩ :=
              Fin.ext hieq
            show _ ∧ _
            rw [hfin, get_concat_last]
            exact ⟨hdig, hpow⟩

/-- In every mining-only reachable state, the first block of the chain
reproduces its hash (it is the genesis block sealed at start-up). -/
lemma mine_reachable_first {hashFn : BlockHeader → String}
    {dv : String → String → SigMsg → Bool} {s : ChainState}
    (h : MineReachable hashFn dv s) :
    ∃ g, s.chain.head? = some g ∧ hashFn g.header = g.hash := by
  induction h with
  | start ts => exact ⟨genesis_block hashFn ts, rfl, rfl⟩
  | tx req s hs ih =>
      obtain ⟨g, hg, hdig⟩ := ih
      refine ⟨g, ?_, hdig⟩
      rw [show (submit_tx dv req s).2.chain = s.chain from submit_tx_chain_eq dv req s]
      exact hg
  | mined pub ts rf pf s b s' hs hm ih =>
      obtain ⟨g, hg, hdig⟩ := ih
      obtain ⟨tip, reward, nonce, htip, hr, htxs, hph, hidx, hts, hn,
        hminer, hdig2, hpow, hs'⟩ := mine_some_inv hm
      subst hs'
      refine ⟨g, ?_, hdig⟩
      show (s.chain ++ [b]).head? = some g
      have hne : s.chain ≠ [] := by
        intro hnil
        rw [hnil] at hg
        cases hg
      rw [List.head?_append_of_ne_nil _ hne]
      exact hg

/-- C6 (counterexample): a reachable state — obtained by adopting `bad_cand` —
whose block at position 0 does not reproduce its stored hash, because
`is_valid_chain` never re-hashes the first block of a candidate. -/
theorem block0_hash_counterexample :
    Reachable cHash dvTrue bad_state
    ∧ cHash ((bad_state.chain.get ⟨0, by decide⟩).header)
        ≠ (bad_state.chain.get ⟨0, by decide⟩).hash :=
  ⟨bad_state_reachable, by decide⟩

/-- C6 (amended): in every reachable state, every block at position ≥ 1
reproduces its stored hash under re-hashing of its non-hash fields and starts
with the configured number of zero symbols; the block at position 0 is subject
to neither check after an adoption, though in states reached without adoption
it is the start-up genesis block and does reproduce its hash (being exempt
from the leading-zeros requirement only). -/
theorem sealed_block_hash_invariant (hashFn : BlockHeader → String)
    (dv : String → String → SigMsg → Bool) :
    (∀ s, Reachable hashFn dv s → ∀ i, (hi : i + 1 < s.chain.length) →
      hashFn ((s.chain.get ⟨i + 1, hi⟩).header) = (s.chain.get ⟨i + 1, hi⟩).hash
      ∧ hash_meets_difficulty ((s.chain.get ⟨i + 1, hi⟩).hash) = true)
    ∧ (∀ s, MineReachable hashFn dv s → ∀ (h0 : 0 < s.chain.length),
      hashFn ((s.chain.get ⟨0, h0⟩).header) = (s.chain.get ⟨0, h0⟩).hash) := by
  constructor
  · intro s hs
    exact reachable_blocks_checked hs
  · intro s hs h0
    obtain ⟨g, hg, hdig⟩ := mine_reachable_first hs
    have h1 : s.chain.head? = some (s.chain.get ⟨0, h0⟩) := by
      rw [List.head?_eq_getElem?, List.getElem?_eq_getElem h0, List.get_eq_getElem]
    rw [h1] at hg
    rw [Option.some.inj hg]
    exact hdig

/-- Witness for C6 at the reachable state `bad_state`, position 1. -/
theorem sealed_block_hash_invariant_witness :
    cHash ((bad_state.chain.get ⟨1, by decide⟩).header)
        = (bad_state.chain.get ⟨1, by decide⟩).hash
    ∧ hash_meets_difficulty ((bad_state.chain.get ⟨1, by decide⟩).hash) = true :=
  (sealed_block_hash_invariant cHash dvTrue).1 _ bad_state_reachable 0 (by decide)

/-! ### C7: balance computation -/

lemma credits_append (pub : String) (l1 l2 : List Tx) :
    credits pub (l1 ++ l2) = credits pub l1 + credits pub l2 := by
  simp [credits, List.filter_append]

lemma debits_append (pub : String) (l1 l2 : List Tx) :
    debits pub (l1 ++ l2) = debits pub l1 + debits pub l2 := by
  simp [debits, List.filter_append]

lemma bal_foldl_txs (pub : String) (l : List Tx) (a : ℚ) :
    l.foldl (tx_balance_step pub) a = a + credits pub l - debits pub l := by
  induction l generalizing a with
  | nil => simp [credits, debits]
  | cons tx l ih =>
      simp only [List.foldl_cons]
      rw [ih]
      unfold tx_balance_step
      cases hto : (tx.tx_to == pub) with
      | false =>
          cases hfrom : (tx.tx_from == pub) with
          | false =>
              simp [credits, debits, List.filter_cons, hto, hfrom]
          | true =>
              simp [credits, debits, List.filter_cons, hto, hfrom]
              ring
      | true =>
          cases hfrom : (tx.tx_from == pub) with
          | false =>
              simp [credits, debits, List.filter_cons, hto, hfrom]
              ring
          | true =>
              simp [credits, debits, List.filter_cons, hto, hfrom]
              ring

lemma chain_blocks_foldl (pub : String) (c : List Block) (a : ℚ) :
    c.foldl (fun b blk => blk.transactions.foldl (tx_balance_step pub) b) a
      = a + credits pub ((c.map Block.transactions).flatten)
        - debits pub ((c.map Block.transactions).flatten) := by
  induction c generalizing a with
  | nil => simp [credits, debits]
  | cons blk c ih =>
      simp only [List.foldl_cons, List.map_cons, List.flatten_cons]
      rw [ih, bal_foldl_txs, credits_append, debits_append]
      ring

lemma pending_foldl (pub : String) (l : List Tx) (a : ℚ) :
    l.foldl (tx_out_step pub) a = a - debits pub l := by
  induction l generalizing a with
  | nil => simp [debits]
  | cons tx l ih =>
      simp only [List.foldl_cons]
      rw [ih]
      unfold tx_out_step
      cases hfrom : (tx.tx_from == pub) with
      | false => simp [debits, List.filter_cons, hfrom]
      | true =>
          simp [debits, List.filter_cons, hfrom]
          ring

/-- C7: for every identity and state, `calculate_balance_internal` equals the
sum of sealed amounts received, minus the sum of sealed amounts sent, minus
the sum of pending amounts sent; pending incoming amounts contribute
nothing. -/
theorem balance_computation_correct (pub : String) (s : ChainState) :
    calculate_balance_internal pub s
      = credits pub (sealed_txs s) - debits pub (sealed_txs s)
        - debits pub s.pending_txs := by
  unfold calculate_balance_internal sealed_txs
  rw [pending_foldl, chain_blocks_foldl]
  ring

/-! ### C9: the chain never shrinks and is never empty -/

/-- C9: the chain is non-empty in every reachable state; a successful mine
appends exactly one block; a successful adoption strictly increases the
length; and no transition of the engine ever shortens the chain. -/
theorem chain_length_monotone (hashFn : BlockHeader → String)
    (dv : String → String → SigMsg → Bool) :
    (∀ s, Reachable hashFn dv s → 0 < s.chain.length)
    ∧ (∀ pub ts rfuel pfuel s b s',
        mine hashFn pub ts rfuel pfuel s = some (b, s') →
        s'.chain = s.chain ++ [b])
    ∧ (∀ inc s, (submit_chain hashFn inc s).1 = true →
        s.chain.length < (submit_chain hashFn inc s).2.chain.length)
    ∧ (∀ s s', Step hashFn dv s s' → s.chain.length ≤ s'.chain.length) := by
  have hmine : ∀ pub ts rfuel pfuel (s : ChainState) b s',
      mine hashFn pub ts rfuel pfuel s = some (b, s') →
      s'.chain = s.chain ++ [b] := by
    intro pub ts rfuel pfuel s b s' hm
    obtain ⟨tip, reward, nonce, _, _, _, _, _, _, _, _, _, _, hs'⟩ :=
      mine_some_inv hm
    rw [hs']
  have hadopt : ∀ inc (s : ChainState), (submit_chain hashFn inc s).1 = true →
      s.chain.length < (submit_chain hashFn inc s).2.chain.length := by
    intro inc s h
    unfold submit_chain at h ⊢
    by_cases hc : s.chain.length < inc.length
        ∧ is_valid_chain hashFn inc = true
    · simp only [if_pos hc]
      exact hc.1
    · rw [if_neg hc] at h
      exact absurd h (by simp)
  have hstep : ∀ s s', Step hashFn dv s s' →
      s.chain.length ≤ s'.chain.length := by
    intro s s' hst
    cases hst with
    | tx req _ _ heq =>
        subst heq
        rw [submit_tx_chain_eq]
    | adopt inc _ _ heq =>
        subst heq
        by_cases hc : s.chain.length < inc.length
            ∧ is_valid_chain hashFn inc = true
        · simp only [submit_chain, if_pos hc]
          exact le_of_lt hc.1
        · simp only [submit_chain, if_neg hc]
          exact le_refl _
    | mined pub ts rfuel pfuel _ b _ hm =>
        rw [hmine _ _ _ _ _ _ _ hm]
        simp
  refine ⟨?_, hmine, hadopt, hstep⟩
  intro s hs
  induction hs with
  | start ts => simp [init_state]
  | step s s' hs2 hstep2 ih => exact lt_of_lt_of_le ih (hstep s s' hstep2)

/-- Witness for C9 at the initial state. -/
theorem chain_length_monotone_witness : 0 < (init_state cHash 0).chain.length :=
  (chain_length_monotone cHash dvTrue).1 _ (Reachable.start 0)

end MyCoin
